import Mathlib

/-!
Verification of TunnelVault's data-collection and text-parsing layer.

Strings are embedded as `List Char`.  The platform command collaborator's
result is a `CmdResult` (exit status plus captured stdout); each collector
is a pure function of that result, mirroring the repository's structure in
which the collectors only interpret already-captured text.

The Windows collectors (`_windows_vpn_ifaces`, `_windows_iface_bytes`,
`_windows_connections`, `_is_vpn_iface` of `tv/watch.py`) are not part of
the excerpt; they are modelled from the spec, as marked on each definition.
`find_pids` of `tv/proc.py` is translated from the source.
-/

namespace TunnelVault

/-- Horizontal/vertical whitespace, as Python's default `strip`/`split`
treat it for the characters that occur in command output. -/
def isSpace (c : Char) : Bool :=
  c = ' ' || c = '\t' || c = '\n' || c = '\r' || c = '\x0b' || c = '\x0c'

def notSpace (c : Char) : Bool := !isSpace c

/-- ASCII decimal digit. -/
def isDigitC (c : Char) : Bool := 48 ≤ c.toNat && c.toNat ≤ 57

/-- Python `str.lstrip()`. -/
def ltrim (l : List Char) : List Char := l.dropWhile isSpace

/-- Python `str.rstrip()`. -/
def rtrim (l : List Char) : List Char := (l.reverse.dropWhile isSpace).reverse

/-- Python `str.strip()`. -/
def trim (l : List Char) : List Char := rtrim (ltrim l)

/-- Lines of a captured output (split on the newline character). -/
def splitLines (l : List Char) : List (List Char) := l.splitOn '\n'

/-- Value of a digit string, most significant first. -/
def natOfDigits (t : List Char) : Nat :=
  t.foldl (fun acc c => acc * 10 + (c.toNat - 48)) 0

/-- Modelled from the spec: the byte-statistics collector's numeric-field
parse, "fails to parse as a non-negative integer" meaning the token must be
a nonempty run of decimal digits. -/
def parseNat (t : List Char) : Option Nat :=
  if t ≠ [] ∧ t.all isDigitC then some (natOfDigits t) else none

theorem length_dropWhile_le {α : Type} (p : α → Bool) (l : List α) :
    (l.dropWhile p).length ≤ l.length := by
  induction l with
  | nil => simp [List.dropWhile]
  | cons a l ih =>
    simp only [List.dropWhile]
    cases p a with
    | true => exact Nat.le_succ_of_le ih
    | false => exact Nat.le_refl _

/-- Accumulator worker for `splitWS`; `acc` is the current token,
reversed. -/
def splitWSAux : List Char → List Char → List (List Char)
  | [], acc => if acc = [] then [] else [acc.reverse]
  | c :: cs, acc =>
    if isSpace c then
      if acc = [] then splitWSAux cs [] else acc.reverse :: splitWSAux cs []
    else splitWSAux cs (c :: acc)

/-- Python `str.split()` with no separator: maximal runs of non-whitespace. -/
def splitWS (l : List Char) : List (List Char) := splitWSAux l []

/-- The captured result of one external-command invocation, as the
command-execution collaborator returns it: exit status and stdout text. -/
structure CmdResult where
  returncode : Int
  stdout : List Char
deriving DecidableEq

/-- The guard shared by all three collectors: nonzero exit status, or
empty/whitespace-only captured output. -/
def badResult (res : CmdResult) : Prop :=
  res.returncode ≠ 0 ∨ trim res.stdout = []

instance : DecidablePred badResult := fun res =>
  inferInstanceAs (Decidable (res.returncode ≠ 0 ∨ trim res.stdout = []))

/-- Insertion into an association list with Python-dict semantics: an
existing binding for the key is replaced in place, a new key is appended. -/
def dinsert {β : Type} : List (List Char × β) → List Char → β → List (List Char × β)
  | [], k, v => [(k, v)]
  | (a, b) :: rest, k, v =>
    if a = k then (k, v) :: rest else (a, b) :: dinsert rest k v

/-- One step of a dict-building fold: parse the line, skip it when the
parse fails, otherwise insert its record. -/
def dstep {β : Type} (f : List Char → Option (List Char × β))
    (m : List (List Char × β)) (l : List Char) : List (List Char × β) :=
  match f l with
  | none => m
  | some kv => dinsert m kv.1 kv.2

/-- Modelled from the spec: the loopback-name pattern of the Windows
address listing, matching the platform's loopback pseudo-interface naming
convention ("Loopback Pseudo-Interface 1") by its name prefix. -/
def isLoopback (name : List Char) : Bool :=
  ("Loopback".toList).isPrefixOf name

/-- Modelled from the spec (the address collector's line parse, absent
from the excerpt): split the line from the right on the last run of
whitespace; the trailing token is the address, the preceding text, trimmed,
is the interface name; lines without both parts are malformed. -/
def parseAddrLine (l : List Char) : Option (List Char × List Char) :=
  let r1 := l.reverse.dropWhile isSpace
  let tok := (r1.takeWhile notSpace).reverse
  let nm := trim (r1.dropWhile notSpace).reverse
  if tok = [] ∨ nm = [] then none else some (nm, tok)

/-- The address collector's per-line record: a well-formed line whose
interface name does not match the loopback pattern. -/
def addrRecord (l : List Char) : Option (List Char × List Char) :=
  match parseAddrLine l with
  | none => none
  | some (k, v) => if isLoopback k then none else some (k, v)

/-- Modelled from the spec: `_windows_vpn_ifaces` — on command failure or
blank output an empty mapping; otherwise a fold over the lines that skips
malformed and loopback-named lines and accumulates name ↦ ip. -/
def windows_vpn_ifaces (res : CmdResult) : List (List Char × List Char) :=
  if badResult res then []
  else (splitLines res.stdout).foldl (dstep addrRecord) []

/-- Modelled from the spec (the byte-statistics collector's line parse):
peel the last two whitespace-delimited tokens off the right as the two
counters (received first, sent second), the remainder, trimmed, is the
interface name; the line is dropped whole unless both tokens parse as
non-negative integers. -/
def parseBytesLine (l : List Char) : Option (List Char × (Nat × Nat)) :=
  let r1 := l.reverse.dropWhile isSpace
  let tok2 := (r1.takeWhile notSpace).reverse
  let r2 := (r1.dropWhile notSpace).dropWhile isSpace
  let tok1 := (r2.takeWhile notSpace).reverse
  let nm := trim (r2.dropWhile notSpace).reverse
  if tok2 = [] ∨ tok1 = [] ∨ nm = [] then none
  else
    match parseNat tok1, parseNat tok2 with
    | some a, some b => some (nm, (a, b))
    | _, _ => none

/-- Modelled from the spec: `_windows_iface_bytes` — on command failure or
blank output an empty mapping; otherwise a fold over the lines that skips
any line whose two trailing tokens do not both parse as non-negative
integers and accumulates name ↦ (received, sent). -/
def windows_iface_bytes (res : CmdResult) : List (List Char × (Nat × Nat)) :=
  if badResult res then []
  else (splitLines res.stdout).foldl (dstep parseBytesLine) []

/-- An active TCP connection: local and remote address:port strings and
the normalized state code. -/
structure Connection where
  «local» : List Char
  remote : List Char
  state : List Char
deriving DecidableEq

/-- Modelled from the spec: the raw state string of a listening socket in
the Windows connection listing. -/
def listeningState : List Char := "LISTENING".toList

/-- The host part of an `address:port` string: the substring before the
final colon, or the whole string when it has no colon (Python
`s.rsplit(":", 1)[0]`). -/
def hostOf (addr : List Char) : List Char :=
  if ':' ∈ addr then ((addr.reverse.dropWhile (fun c => c ≠ ':')).drop 1).reverse
  else addr

/-- Modelled from the spec: a connection-listing row parses only when the
line splits into exactly the four columns protocol, local, remote, state;
banner and header lines do not. -/
def parseConnLine (l : List Char) : Option (List Char × List Char × List Char) :=
  match splitWS l with
  | [_, loc, rem, st] => some (loc, rem, st)
  | _ => none

/-- All parsed connection rows of a command result, in listing order. -/
def connRows (res : CmdResult) : List (List Char × List Char × List Char) :=
  (splitLines res.stdout).filterMap parseConnLine

/-- The inclusion test of the connection lister: the local host part is a
relevant local IP and the raw state is not the listening state. -/
def keepRow (ips : List (List Char)) (row : List Char × List Char × List Char) : Bool :=
  decide (hostOf row.1 ∈ ips ∧ row.2.2 ≠ listeningState)

/-- A kept row's Connection: addresses unchanged, state truncated to its
first 5 characters. -/
def toConn (row : List Char × List Char × List Char) : Connection :=
  ⟨row.1, row.2.1, row.2.2.take 5⟩

/-- Modelled from the spec: `_windows_connections` — an empty relevant-IP
set short-circuits to an empty sequence; command failure or blank output
gives an empty sequence; otherwise the parsed rows that pass the inclusion
test, in listing order, each normalized to a Connection. -/
def windows_connections (ips : List (List Char)) (res : CmdResult) : List Connection :=
  if ips = [] then []
  else if badResult res then []
  else ((connRows res).filter (keepRow ips)).map toConn

/-- Modelled from the spec: `_is_vpn_iface` on Windows — adapter naming
does not reliably signal VPN membership there, so the classifier accepts
any non-empty name. -/
def is_vpn_iface_windows (name : List Char) : Bool := !name.isEmpty

/-- The digit part of Python's `int(str)` grammar: decimal digits with
single underscores allowed between digits. -/
def pyDigits : Nat → List Char → Option Nat
  | acc, [] => some acc
  | acc, c :: cs =>
    if isDigitC c then pyDigits (acc * 10 + (c.toNat - 48)) cs
    else if c = '_' then
      match cs with
      | [] => none
      | d :: ds => if isDigitC d then pyDigits (acc * 10 + (d.toNat - 48)) ds else none
    else none

/-- Python `int(str)`: surrounding whitespace stripped, an optional sign,
then a nonempty digit run (underscore separators allowed); `none` models a
`ValueError`. -/
def pyInt (s : List Char) : Option Int :=
  match trim s with
  | [] => none
  | '+' :: rest =>
    match rest with
    | [] => none
    | c :: cs => if isDigitC c then (pyDigits (c.toNat - 48) cs).map Int.ofNat else none
  | '-' :: rest =>
    match rest with
    | [] => none
    | c :: cs =>
      if isDigitC c then (pyDigits (c.toNat - 48) cs).map (fun n => -(n : Int)) else none
  | c :: cs => if isDigitC c then (pyDigits (c.toNat - 48) cs).map Int.ofNat else none

/-- One line of the PowerShell (and pgrep) branch of `find_pids`: strip
the line, skip it when blank or non-numeric, and skip the caller's own
PID. -/
def pidLine (own : Int) (l : List Char) : Option Int :=
  let s := trim l
  if s = [] then none
  else
    match pyInt s with
    | none => none
    | some p => if p = own then none else some p

/-- The PID list the PowerShell branch of `find_pids` builds from its
captured output; the pgrep branch builds its list the same way. -/
def psParse (own : Int) (out : List Char) : List Int :=
  (splitLines (trim out)).filterMap (pidLine own)

/-- One line of the WMIC branch of `find_pids`: strip the line, require
the `ProcessId=` prefix, parse what follows the first `=`, and skip the
caller's own PID. -/
def wmicLine (own : Int) (l : List Char) : Option Int :=
  let s := trim l
  if ("ProcessId=".toList).isPrefixOf s then
    match pyInt (s.drop 10) with
    | none => none
    | some p => if p = own then none else some p
  else none

/-- The PID list the WMIC branch of `find_pids` builds from its captured
output (lines of the unstripped stdout). -/
def wmicParse (own : Int) (out : List Char) : List Int :=
  (splitLines out).filterMap (wmicLine own)

/-- The WMIC fallback block of `find_pids`: `none` models an
OSError/timeout of the WMIC invocation (return an empty list); otherwise
its output is parsed only when the exit status is zero and the stripped
stdout nonempty. -/
def wmicFallback (own : Int) (wmicRes : Option CmdResult) : List Int :=
  match wmicRes with
  | none => []
  | some r =>
    if r.returncode = 0 ∧ trim r.stdout ≠ [] then wmicParse own r.stdout else []

/-- `find_pids` of `tv/proc.py`.  `own` is the calling process's PID.  On
Windows the PowerShell command is tried first (`none` models an
OSError/timeout); when it fails, reports a nonzero status, produces blank
output, or yields no PIDs, the WMIC fallback is consulted.  Off Windows a
single pgrep invocation is parsed like the PowerShell one. -/
def find_pids (own : Int) (isWin : Bool) (psRes wmicRes : Option CmdResult)
    (pgRes : CmdResult) : List Int :=
  if isWin then
    match psRes with
    | none => wmicFallback own wmicRes
    | some r =>
      if r.returncode = 0 ∧ trim r.stdout ≠ [] then
        if psParse own r.stdout ≠ [] then psParse own r.stdout
        else wmicFallback own wmicRes
      else wmicFallback own wmicRes
  else if pgRes.returncode = 0 ∧ trim pgRes.stdout ≠ [] then psParse own pgRes.stdout
  else []

/-! Helper lemmas about whitespace splitting and trimming. -/

theorem takeWhile_append_of_pos {α : Type} {p : α → Bool} {l₁ : List α} (l₂ : List α)
    (h : ∀ a ∈ l₁, p a = true) : (l₁ ++ l₂).takeWhile p = l₁ ++ l₂.takeWhile p := by
  induction l₁ with
  | nil => simp
  | cons a tl ih =>
    have ha : p a = true := h a (by simp)
    simp only [List.cons_append, List.takeWhile_cons, ha, if_true]
    rw [ih (fun x hx => h x (by simp [hx]))]

theorem dropWhile_append_of_pos {α : Type} {p : α → Bool} {l₁ : List α} (l₂ : List α)
    (h : ∀ a ∈ l₁, p a = true) : (l₁ ++ l₂).dropWhile p = l₂.dropWhile p := by
  induction l₁ with
  | nil => simp
  | cons a tl ih =>
    have ha : p a = true := h a (by simp)
    simp only [List.cons_append, List.dropWhile_cons, ha, if_true]
    exact ih (fun x hx => h x (by simp [hx]))

theorem dropWhile_append_eq_self {l₁ : List Char} (l₂ : List Char) (h1 : l₁ ≠ [])
    (h2 : ∀ c ∈ l₁, isSpace c = false) :
    (l₁ ++ l₂).dropWhile isSpace = l₁ ++ l₂ := by
  cases l₁ with
  | nil => exact absurd rfl h1
  | cons c cs =>
    have hc : isSpace c = false := h2 c (by simp)
    simp [List.dropWhile_cons, hc]

theorem takeWhile_notSpace_append {tok : List Char} (sep rest : List Char)
    (htok : ∀ c ∈ tok, isSpace c = false) (hs : sep ≠ [])
    (hsall : ∀ c ∈ sep, isSpace c = true) :
    (tok ++ (sep ++ rest)).takeWhile notSpace = tok := by
  rw [takeWhile_append_of_pos (sep ++ rest)
    (fun c hc => by simp [notSpace, htok c hc])]
  cases sep with
  | nil => exact absurd rfl hs
  | cons s ss =>
    have hsp : isSpace s = true := hsall s (by simp)
    simp [List.takeWhile_cons, notSpace, hsp]

theorem dropWhile_notSpace_append {tok : List Char} (sep rest : List Char)
    (htok : ∀ c ∈ tok, isSpace c = false) (hs : sep ≠ [])
    (hsall : ∀ c ∈ sep, isSpace c = true) :
    (tok ++ (sep ++ rest)).dropWhile notSpace = sep ++ rest := by
  rw [dropWhile_append_of_pos (sep ++ rest)
    (fun c hc => by simp [notSpace, htok c hc])]
  cases sep with
  | nil => exact absurd rfl hs
  | cons s ss =>
    have hsp : isSpace s = true := hsall s (by simp)
    simp [List.dropWhile_cons, notSpace, hsp]

theorem rtrim_append_ws (l ws : List Char) (h : ∀ c ∈ ws, isSpace c = true) :
    rtrim (l ++ ws) = rtrim l := by
  unfold rtrim
  rw [List.reverse_append,
    dropWhile_append_of_pos l.reverse (fun c hc => h c (List.mem_reverse.mp hc))]

theorem ltrim_append_of_exists (l₁ l₂ : List Char) (h : ∃ c ∈ l₁, isSpace c = false) :
    ltrim (l₁ ++ l₂) = ltrim l₁ ++ l₂ := by
  induction l₁ with
  | nil => obtain ⟨c, hc, _⟩ := h; simp at hc
  | cons a tl ih =>
    unfold ltrim
    cases ha : isSpace a with
    | true =>
      simp only [List.cons_append, List.dropWhile_cons, ha, if_true]
      refine ih ?_
      obtain ⟨c, hc, hcs⟩ := h
      rcases List.mem_cons.mp hc with rfl | hctl
      · rw [ha] at hcs; cases hcs
      · exact ⟨c, hctl, hcs⟩
    | false => simp [List.dropWhile_cons, ha]

theorem dropWhile_eq_nil_of_pos {p : Char → Bool} {l : List Char}
    (h : ∀ c ∈ l, p c = true) : l.dropWhile p = [] := by
  induction l with
  | nil => simp
  | cons a tl ih =>
    simp only [List.dropWhile_cons, h a (by simp), if_true]
    exact ih (fun c hc => h c (by simp [hc]))

theorem trim_append_ws (l ws : List Char) (h : ∀ c ∈ ws, isSpace c = true) :
    trim (l ++ ws) = trim l := by
  unfold trim
  by_cases hex : ∃ c ∈ l, isSpace c = false
  · rw [ltrim_append_of_exists l ws hex, rtrim_append_ws _ ws h]
  · push_neg at hex
    have hall : ∀ c ∈ l, isSpace c = true := by
      intro c hc
      cases hcs : isSpace c with
      | true => rfl
      | false => exact absurd hcs (hex c hc)
    have h1 : ltrim (l ++ ws) = [] := by
      unfold ltrim
      exact dropWhile_eq_nil_of_pos (fun c hc => by
        rcases List.mem_append.mp hc with hcl | hcw
        · exact hall c hcl
        · exact h c hcw)
    have h2 : ltrim l = [] := dropWhile_eq_nil_of_pos hall
    rw [h1, h2]

theorem isSpace_eq_false_of_digit (c : Char) (h : isDigitC c = true) :
    isSpace c = false := by
  cases hs : isSpace c with
  | false => rfl
  | true =>
    exfalso
    simp only [isSpace, Bool.or_eq_true, decide_eq_true_eq] at hs
    rcases hs with ((((rfl | rfl) | rfl) | rfl) | rfl) | rfl <;> simp [isDigitC] at h

theorem parseNat_digits (t : List Char) (h1 : t ≠ []) (h2 : ∀ c ∈ t, isDigitC c = true) :
    parseNat t = some (natOfDigits t) := by
  have hall : t.all isDigitC = true := List.all_eq_true.mpr h2
  simp [parseNat, h1, hall]

/-! Helper lemmas about dict insertion and the dict-building folds. -/

theorem mem_dinsert_elim {β : Type} {m : List (List Char × β)} {k a : List Char} {v b : β}
    (h : (a, b) ∈ dinsert m k v) : (a, b) = (k, v) ∨ (a, b) ∈ m := by
  induction m with
  | nil => simpa [dinsert] using h
  | cons hd tl ih =>
    obtain ⟨a0, b0⟩ := hd
    by_cases h0 : a0 = k
    · simp only [dinsert, h0, if_true] at h
      rcases List.mem_cons.mp h with he | htl
      · exact Or.inl he
      · exact Or.inr (List.mem_cons_of_mem _ htl)
    · simp only [dinsert, h0, if_false] at h
      rcases List.mem_cons.mp h with he | htl
      · exact Or.inr (he ▸ List.mem_cons_self _ _)
      · rcases ih htl with he | hm
        · exact Or.inl he
        · exact Or.inr (List.mem_cons_of_mem _ hm)

theorem dinsert_self {β : Type} (m : List (List Char × β)) (k : List Char) (v : β) :
    (k, v) ∈ dinsert m k v := by
  induction m with
  | nil => simp [dinsert]
  | cons hd tl ih =>
    obtain ⟨a0, b0⟩ := hd
    by_cases h0 : a0 = k
    · simp [dinsert, h0]
    · simp only [dinsert, h0, if_false]
      exact List.mem_cons_of_mem _ ih

theorem mem_dinsert_of_ne {β : Type} {m : List (List Char × β)} {a : List Char} {b : β}
    (k : List Char) (v : β) (h : (a, b) ∈ m) (hne : a ≠ k) : (a, b) ∈ dinsert m k v := by
  induction m with
  | nil => simp at h
  | cons hd tl ih =>
    obtain ⟨a0, b0⟩ := hd
    by_cases h0 : a0 = k
    · simp only [dinsert, h0, if_true]
      rcases List.mem_cons.mp h with he | htl
      · exact absurd ((congrArg Prod.fst he).trans h0) hne
      · exact List.mem_cons_of_mem _ htl
    · simp only [dinsert, h0, if_false]
      rcases List.mem_cons.mp h with he | htl
      · exact he ▸ List.mem_cons_self _ _
      · exact List.mem_cons_of_mem _ (ih htl)

theorem exists_key_dinsert {β : Type} {m : List (List Char × β)} {k : List Char} {v : β}
    (a : List Char) (b : β) (h : (k, v) ∈ m) : ∃ w, (k, w) ∈ dinsert m a b := by
  by_cases hk : k = a
  · exact ⟨b, hk ▸ dinsert_self m a b⟩
  · exact ⟨v, mem_dinsert_of_ne a b h hk⟩

/-- The dict-building fold over already-parsed records. -/
def dfold {β : Type} (m : List (List Char × β)) (recs : List (List Char × β)) :
    List (List Char × β) :=
  recs.foldl (fun acc kv => dinsert acc kv.1 kv.2) m

theorem foldl_dstep_eq_dfold {β : Type} (f : List Char → Option (List Char × β))
    (lines : List (List Char)) (m : List (List Char × β)) :
    lines.foldl (dstep f) m = dfold m (lines.filterMap f) := by
  induction lines generalizing m with
  | nil => rfl
  | cons l tl ih =>
    cases hf : f l with
    | none => simp only [List.foldl_cons, List.filterMap_cons, hf, dstep]; exact ih m
    | some kv =>
      simp only [List.foldl_cons, List.filterMap_cons, hf, dstep, dfold, List.foldl_cons]
      exact ih _

theorem mem_dfold_elim {β : Type} {m recs : List (List Char × β)} {a : List Char} {b : β}
    (h : (a, b) ∈ dfold m recs) : (a, b) ∈ m ∨ (a, b) ∈ recs := by
  induction recs generalizing m with
  | nil => exact Or.inl h
  | cons kv tl ih =>
    rcases ih h with hm | htl
    · rcases mem_dinsert_elim hm with he | hmm
      · exact Or.inr (he ▸ List.mem_cons_self _ _)
      · exact Or.inl hmm
    · exact Or.inr (List.mem_cons_of_mem _ htl)

theorem mem_dfold_of_mem {β : Type} {m : List (List Char × β)} {a : List Char} {b : β}
    (recs : List (List Char × β)) (h : (a, b) ∈ m)
    (hne : ∀ p ∈ recs, p.1 ≠ a) : (a, b) ∈ dfold m recs := by
  induction recs generalizing m with
  | nil => exact h
  | cons kv tl ih =>
    refine ih (mem_dinsert_of_ne kv.1 kv.2 h ?_) (fun p hp => hne p (by simp [hp]))
    exact fun he => (hne kv (by simp)) (he ▸ rfl)

theorem exists_key_dfold_of_mem {β : Type} {m : List (List Char × β)} {k : List Char}
    {w : β} (recs : List (List Char × β)) (h : (k, w) ∈ m) :
    ∃ w2, (k, w2) ∈ dfold m recs := by
  induction recs generalizing m w with
  | nil => exact ⟨w, h⟩
  | cons kv tl ih =>
    obtain ⟨w2, hw2⟩ := exists_key_dinsert kv.1 kv.2 h
    exact ih hw2

theorem exists_key_dfold {β : Type} {recs : List (List Char × β)} {k : List Char}
    (m : List (List Char × β)) (h : ∃ v, (k, v) ∈ recs) :
    ∃ w, (k, w) ∈ dfold m recs := by
  induction recs generalizing m with
  | nil => obtain ⟨v, hv⟩ := h; simp at hv
  | cons kv tl ih =>
    obtain ⟨v, hv⟩ := h
    rcases List.mem_cons.mp hv with he | htl
    · subst he
      exact exists_key_dfold_of_mem tl (dinsert_self m k v)
    · exact ih _ ⟨v, htl⟩

/-- The address collector's parsed, loopback-filtered records, in line
order. -/
def addrRecords (res : CmdResult) : List (List Char × List Char) :=
  (splitLines res.stdout).filterMap addrRecord

/-- C1: a Connection appears in the connection lister's result only if the
host part of its local address (the substring before the final
colon-separated port) is a member of the caller-supplied relevant-IP set,
and it was built from a parsed row of the listing whose raw state field is
not the listening state. -/
theorem connections_only_relevant_nonlistening :
    ∀ (ips : List (List Char)) (res : CmdResult) (c : Connection),
    c ∈ windows_connections ips res →
    hostOf c.«local» ∈ ips ∧
      ∃ row ∈ connRows res, toConn row = c ∧
        hostOf row.1 ∈ ips ∧ row.2.2 ≠ listeningState := by
  intro ips res c hc
  unfold windows_connections at hc
  split at hc
  · simp at hc
  · split at hc
    · simp at hc
    · obtain ⟨row, hrow, hcr⟩ := List.mem_map.mp hc
      have hmem := List.mem_filter.mp hrow
      have hkeep : hostOf row.1 ∈ ips ∧ row.2.2 ≠ listeningState := by
        have h2 := hmem.2
        simpa [keepRow, decide_eq_true_eq] using h2
      subst hcr
      exact ⟨hkeep.1, row, hmem.1, rfl, hkeep.1, hkeep.2⟩

/-- Witness for C1 at a concrete listing: the returned Connection stems
from a parsed row whose local host is in the relevant set and whose raw
state is not the listening state. -/
theorem connections_only_relevant_nonlistening_witness :
    hostOf ("1.2.3.4:5").toList ∈ [("1.2.3.4").toList] ∧
    ∃ row ∈ connRows ⟨0, ("TCP 1.2.3.4:5 6.7.8.9:10 ESTABLISHED").toList⟩,
      toConn row = ⟨("1.2.3.4:5").toList, ("6.7.8.9:10").toList, ("ESTAB").toList⟩ ∧
      hostOf row.1 ∈ [("1.2.3.4").toList] ∧ row.2.2 ≠ listeningState :=
  connections_only_relevant_nonlistening [("1.2.3.4").toList]
    ⟨0, ("TCP 1.2.3.4:5 6.7.8.9:10 ESTABLISHED").toList⟩
    ⟨("1.2.3.4:5").toList, ("6.7.8.9:10").toList, ("ESTAB").toList⟩ (by decide)

/-- C2 counterexample: a raw state shorter than 5 characters is carried
through whole, so the returned state has fewer than 5 characters. -/
theorem state_five_chars_cex :
    ∃ c ∈ windows_connections [("1.1.1.1").toList]
      ⟨0, ("TCP 1.1.1.1:2 3.3.3.3:4 FIN").toList⟩,
      c.state.length ≠ 5 := by decide

/-- C2 as amended: every returned Connection stems from a parsed row of
the listing, and its state is the first 5 characters of that row's raw
state field — length at most 5, and exactly 5 whenever the raw state has
at least 5 characters, the whole raw state when it is shorter. -/
theorem state_truncated_to_five :
    ∀ (ips : List (List Char)) (res : CmdResult) (c : Connection),
    c ∈ windows_connections ips res →
    c.state.length ≤ 5 ∧
      ∃ row ∈ connRows res, toConn row = c ∧ c.state = row.2.2.take 5 ∧
        c.state.length = min 5 row.2.2.length := by
  intro ips res c hc
  unfold windows_connections at hc
  split at hc
  · simp at hc
  · split at hc
    · simp at hc
    · obtain ⟨row, hrow, hcr⟩ := List.mem_map.mp hc
      have hmem := List.mem_filter.mp hrow
      subst hcr
      refine ⟨List.length_take_le 5 row.2.2, row, hmem.1, rfl, rfl, ?_⟩
      simp [toConn, List.length_take]

/-- Witness for C2's amended theorem at a concrete listing: the 9-character
raw state TIME_WAIT of the source row is truncated to the 5-character
TIME_. -/
theorem state_truncated_to_five_witness :
    ("TIME_").toList.length ≤ 5 ∧
    ∃ row ∈ connRows ⟨0, ("TCP 1.2.3.4:5 6.7.8.9:10 TIME_WAIT").toList⟩,
      toConn row = ⟨("1.2.3.4:5").toList, ("6.7.8.9:10").toList, ("TIME_").toList⟩ ∧
      ("TIME_").toList = row.2.2.take 5 ∧
      ("TIME_").toList.length = min 5 row.2.2.length :=
  state_truncated_to_five [("1.2.3.4").toList]
    ⟨0, ("TCP 1.2.3.4:5 6.7.8.9:10 TIME_WAIT").toList⟩
    ⟨("1.2.3.4:5").toList, ("6.7.8.9:10").toList, ("TIME_").toList⟩ (by decide)

/-- C3: on nonzero exit status, or empty or whitespace-only captured
output, each of the three collectors returns an empty result. -/
theorem collectors_empty_on_failure :
    ∀ res : CmdResult, badResult res →
    windows_vpn_ifaces res = [] ∧ windows_iface_bytes res = [] ∧
    ∀ ips, windows_connections ips res = [] := by
  intro res h
  refine ⟨by simp [windows_vpn_ifaces, h], by simp [windows_iface_bytes, h], ?_⟩
  intro ips
  by_cases hips : ips = [] <;> simp [windows_connections, hips, h]

/-- Witness for C3: a nonzero exit status empties all three collectors
even though stdout holds well-formed rows. -/
theorem collectors_empty_on_failure_witness :
    windows_vpn_ifaces ⟨1, ("Ethernet  1.2.3.4").toList⟩ = [] ∧
    windows_iface_bytes ⟨1, ("Ethernet  1.2.3.4").toList⟩ = [] ∧
    windows_connections [("1.2.3.4").toList] ⟨1, ("Ethernet  1.2.3.4").toList⟩ = [] := by
  have h := collectors_empty_on_failure ⟨1, ("Ethernet  1.2.3.4").toList⟩
    (by decide)
  exact ⟨h.1, h.2.1, h.2.2 _⟩

/-- C4: an empty relevant-local-IP set yields an empty connection
sequence, whatever the command reported. -/
theorem connections_empty_ips :
    ∀ res : CmdResult, windows_connections [] res = [] := by
  intro res
  simp [windows_connections]

/-- C8: the connection lister's output preserves the relative order of the
rows of the source listing: it is a sublist of all parsed rows in listing
order, so no reordering or sorting is applied. -/
theorem connections_order_preserved :
    ∀ (ips : List (List Char)) (res : CmdResult),
    List.Sublist (windows_connections ips res) ((connRows res).map toConn) := by
  intro ips res
  unfold windows_connections
  split
  · exact List.nil_sublist _
  · split
    · exact List.nil_sublist _
    · exact List.Sublist.map toConn (List.filter_sublist _)

theorem isLoopback_eq_false_of_addrRecord {l k v : List Char}
    (h : addrRecord l = some (k, v)) : isLoopback k = false := by
  cases hp : parseAddrLine l with
  | none => simp [addrRecord, hp] at h
  | some kv =>
    obtain ⟨a, b⟩ := kv
    cases hl : isLoopback a with
    | true => simp [addrRecord, hp, hl] at h
    | false =>
      simp only [addrRecord, hp, hl, Bool.false_eq_true, if_false,
        Option.some.injEq, Prod.mk.injEq] at h
      exact h.1 ▸ hl

/-- C5 counterexample: the line "A  1.1.1.1" is well-formed and not
loopback-named, yet its (name, ip) pair is absent from the result because
a later line rebinds the same name. -/
theorem vpn_ifaces_pair_cex :
    ("A  1.1.1.1").toList ∈ splitLines (("A  1.1.1.1\nA  2.2.2.2").toList) ∧
    addrRecord (("A  1.1.1.1").toList) = some (("A").toList, ("1.1.1.1").toList) ∧
    (("A").toList, ("1.1.1.1").toList) ∉
      windows_vpn_ifaces ⟨0, ("A  1.1.1.1\nA  2.2.2.2").toList⟩ := by decide

/-- C5 as amended: no loopback-named interface ever appears in the
address collector's result; every pair of the result comes from some
well-formed non-loopback line; every well-formed non-loopback line's name
appears as a key; and a line's exact (name, ip) pair appears whenever no
later well-formed non-loopback line rebinds the same name. -/
theorem vpn_ifaces_loopback_excluded_keys_present :
    ∀ res : CmdResult,
    (∀ k v : List Char, (k, v) ∈ windows_vpn_ifaces res →
      isLoopback k = false ∧ (k, v) ∈ addrRecords res) ∧
    (∀ k v : List Char, ¬ badResult res → (k, v) ∈ addrRecords res →
      ∃ w, (k, w) ∈ windows_vpn_ifaces res) ∧
    (∀ (l₁ : List (List Char × List Char)) (k v : List Char) l₂,
      ¬ badResult res → addrRecords res = l₁ ++ (k, v) :: l₂ →
      (∀ p ∈ l₂, p.1 ≠ k) → (k, v) ∈ windows_vpn_ifaces res) := by
  intro res
  refine ⟨?_, ?_, ?_⟩
  · intro k v h
    unfold windows_vpn_ifaces at h
    split at h
    · simp at h
    · rw [foldl_dstep_eq_dfold] at h
      have hrec : (k, v) ∈ addrRecords res := by
        rcases mem_dfold_elim h with hm | hr
        · simp at hm
        · exact hr
      obtain ⟨l, _, hl⟩ := List.mem_filterMap.mp hrec
      exact ⟨isLoopback_eq_false_of_addrRecord hl, hrec⟩
  · intro k v hb h
    unfold windows_vpn_ifaces
    rw [if_neg hb, foldl_dstep_eq_dfold]
    exact exists_key_dfold [] ⟨v, h⟩
  · intro l₁ k v l₂ hb he hne
    unfold windows_vpn_ifaces
    rw [if_neg hb, foldl_dstep_eq_dfold]
    unfold addrRecords at he
    rw [show (splitLines res.stdout).filterMap addrRecord = l₁ ++ (k, v) :: l₂ from he]
    show (k, v) ∈ ((l₁ ++ (k, v) :: l₂).foldl (fun acc kv => dinsert acc kv.1 kv.2) [])
    rw [List.foldl_append, List.foldl_cons]
    exact mem_dfold_of_mem l₂ (dinsert_self _ k v) hne

theorem foldl_dstep_filter_isSome {β : Type} (f : List Char → Option (List Char × β))
    (lines : List (List Char)) (m : List (List Char × β)) :
    lines.foldl (dstep f) m =
      (lines.filter (fun l => (f l).isSome)).foldl (dstep f) m := by
  induction lines generalizing m with
  | nil => rfl
  | cons l tl ih =>
    cases hf : f l with
    | none =>
      have hstep : dstep f m l = m := by simp [dstep, hf]
      simp only [List.foldl_cons, List.filter_cons, hf, Option.isSome_none, hstep]
      exact ih m
    | some kv =>
      have : (f l).isSome = true := by simp [hf]
      simp only [List.foldl_cons, List.filter_cons, this, if_true]
      exact ih _

/-- C6: a line whose trailing tokens do not parse contributes nothing to
the byte-statistics result — folding only the parseable lines gives the
identical mapping, so malformed lines are dropped whole, the remaining
lines contribute exactly their own records, and parsing never aborts. -/
theorem iface_bytes_malformed_line_skipped :
    ∀ res : CmdResult, res.returncode = 0 → trim res.stdout ≠ [] →
    windows_iface_bytes res =
      ((splitLines res.stdout).filter (fun l => (parseBytesLine l).isSome)).foldl
        (dstep parseBytesLine) [] := by
  intro res h1 h2
  unfold windows_iface_bytes
  rw [if_neg (by simp [badResult, h1, h2])]
  exact foldl_dstep_filter_isSome parseBytesLine _ []

/-- Witness for C6 on an output mixing a placeholder-valued line with a
well-formed one. -/
theorem iface_bytes_malformed_line_skipped_witness :
    windows_iface_bytes ⟨0, ("Ethernet  N/A  N/A\nWi-Fi  1  2").toList⟩ =
      ((splitLines (("Ethernet  N/A  N/A\nWi-Fi  1  2").toList)).filter
        (fun l => (parseBytesLine l).isSome)).foldl (dstep parseBytesLine) [] :=
  iface_bytes_malformed_line_skipped ⟨0, ("Ethernet  N/A  N/A\nWi-Fi  1  2").toList⟩
    (by decide) (by decide)

/-- C7: a well-formed line whose interface name has embedded spaces is
split from the right — one trailing address token for the address
collector, two trailing numeric tokens for the byte-statistics
collector — and the full name is recovered intact in both. -/
theorem spaces_in_name_parsed_intact :
    ∀ nm : List Char, ' ' ∈ nm → trim nm = nm → nm ≠ [] →
    (∀ sep addr : List Char, sep ≠ [] → (∀ c ∈ sep, isSpace c = true) →
      addr ≠ [] → (∀ c ∈ addr, isSpace c = false) →
      parseAddrLine (nm ++ sep ++ addr) = some (nm, addr)) ∧
    (∀ s1 t1 s2 t2 : List Char,
      s1 ≠ [] → (∀ c ∈ s1, isSpace c = true) →
      s2 ≠ [] → (∀ c ∈ s2, isSpace c = true) →
      t1 ≠ [] → (∀ c ∈ t1, isDigitC c = true) →
      t2 ≠ [] → (∀ c ∈ t2, isDigitC c = true) →
      parseBytesLine (nm ++ s1 ++ t1 ++ s2 ++ t2) =
        some (nm, (natOfDigits t1, natOfDigits t2))) := by
  intro nm hsp htrim hne
  constructor
  · intro sep addr hsep hsepall haddr haddrall
    have e1 : (nm ++ sep ++ addr).reverse =
        addr.reverse ++ (sep.reverse ++ nm.reverse) := by
      simp [List.reverse_append]
    have har_ne : addr.reverse ≠ [] := by simpa using haddr
    have har_all : ∀ c ∈ addr.reverse, isSpace c = false :=
      fun c hc => haddrall c (List.mem_reverse.mp hc)
    have hsr_ne : sep.reverse ≠ [] := by simpa using hsep
    have hsr_all : ∀ c ∈ sep.reverse, isSpace c = true :=
      fun c hc => hsepall c (List.mem_reverse.mp hc)
    simp only [parseAddrLine]
    rw [e1, dropWhile_append_eq_self _ har_ne har_all,
      takeWhile_notSpace_append _ _ har_all hsr_ne hsr_all,
      dropWhile_notSpace_append _ _ har_all hsr_ne hsr_all,
      List.reverse_reverse]
    have e2 : (sep.reverse ++ nm.reverse).reverse = nm ++ sep := by simp
    rw [e2, trim_append_ws nm sep hsepall, htrim]
    simp [haddr, hne]
  · intro s1 t1 s2 t2 hs1 hs1all hs2 hs2all ht1 ht1all ht2 ht2all
    have ht1sp : ∀ c ∈ t1, isSpace c = false :=
      fun c hc => isSpace_eq_false_of_digit c (ht1all c hc)
    have ht2sp : ∀ c ∈ t2, isSpace c = false :=
      fun c hc => isSpace_eq_false_of_digit c (ht2all c hc)
    have ht1r_ne : t1.reverse ≠ [] := by simpa using ht1
    have ht1r_all : ∀ c ∈ t1.reverse, isSpace c = false :=
      fun c hc => ht1sp c (List.mem_reverse.mp hc)
    have ht2r_ne : t2.reverse ≠ [] := by simpa using ht2
    have ht2r_all : ∀ c ∈ t2.reverse, isSpace c = false :=
      fun c hc => ht2sp c (List.mem_reverse.mp hc)
    have hs1r_ne : s1.reverse ≠ [] := by simpa using hs1
    have hs1r_all : ∀ c ∈ s1.reverse, isSpace c = true :=
      fun c hc => hs1all c (List.mem_reverse.mp hc)
    have hs2r_ne : s2.reverse ≠ [] := by simpa using hs2
    have hs2r_all : ∀ c ∈ s2.reverse, isSpace c = true :=
      fun c hc => hs2all c (List.mem_reverse.mp hc)
    have e1 : (nm ++ s1 ++ t1 ++ s2 ++ t2).reverse =
        t2.reverse ++ (s2.reverse ++ (t1.reverse ++ (s1.reverse ++ nm.reverse))) := by
      simp [List.reverse_append]
    simp only [parseBytesLine]
    rw [e1, dropWhile_append_eq_self _ ht2r_ne ht2r_all,
      takeWhile_notSpace_append _ _ ht2r_all hs2r_ne hs2r_all,
      dropWhile_notSpace_append _ _ ht2r_all hs2r_ne hs2r_all,
      dropWhile_append_of_pos _ hs2r_all,
      dropWhile_append_eq_self _ ht1r_ne ht1r_all,
      takeWhile_notSpace_append _ _ ht1r_all hs1r_ne hs1r_all,
      dropWhile_notSpace_append _ _ ht1r_all hs1r_ne hs1r_all,
      List.reverse_reverse, List.reverse_reverse]
    have e2 : (s1.reverse ++ nm.reverse).reverse = nm ++ s1 := by simp
    rw [e2, trim_append_ws nm s1 hs1all, htrim,
      parseNat_digits t1 ht1 ht1all, parseNat_digits t2 ht2 ht2all]
    simp [ht1, ht2, hne]

/-- Witness for C7 at the repository's own fixture name, which holds
embedded spaces. -/
theorem spaces_in_name_parsed_intact_witness :
    (∀ sep addr : List Char, sep ≠ [] → (∀ c ∈ sep, isSpace c = true) →
      addr ≠ [] → (∀ c ∈ addr, isSpace c = false) →
      parseAddrLine (("Local Area Connection 2").toList ++ sep ++ addr) =
        some (("Local Area Connection 2").toList, addr)) ∧
    (∀ s1 t1 s2 t2 : List Char,
      s1 ≠ [] → (∀ c ∈ s1, isSpace c = true) →
      s2 ≠ [] → (∀ c ∈ s2, isSpace c = true) →
      t1 ≠ [] → (∀ c ∈ t1, isDigitC c = true) →
      t2 ≠ [] → (∀ c ∈ t2, isDigitC c = true) →
      parseBytesLine (("Local Area Connection 2").toList ++ s1 ++ t1 ++ s2 ++ t2) =
        some (("Local Area Connection 2").toList, (natOfDigits t1, natOfDigits t2))) :=
  spaces_in_name_parsed_intact ("Local Area Connection 2").toList
    (by decide) (by decide) (by decide)

/-- C9: on Windows the interface classifier accepts every non-empty
interface name. -/
theorem is_vpn_iface_windows_accepts_nonempty :
    ∀ name : List Char, name ≠ [] → is_vpn_iface_windows name = true := by
  intro name h
  cases name with
  | nil => exact absurd rfl h
  | cons c cs => rfl

/-- Witness for C9 at a concrete adapter name. -/
theorem is_vpn_iface_windows_accepts_nonempty_witness :
    is_vpn_iface_windows ("VPN Connection").toList = true :=
  is_vpn_iface_windows_accepts_nonempty ("VPN Connection").toList (by decide)

theorem psParse_sound {own p : Int} {out : List Char} (h : p ∈ psParse own out) :
    p ≠ own ∧ ∃ line ∈ splitLines (trim out), pyInt (trim line) = some p := by
  obtain ⟨l, hl, he⟩ := List.mem_filterMap.mp h
  simp only [pidLine] at he
  split at he
  · cases he
  · split at he
    · cases he
    · next q heq =>
      split at he
      · cases he
      · next hqo =>
        obtain rfl : q = p := by cases he; rfl
        exact ⟨hqo, l, hl, heq⟩

theorem wmicParse_sound {own p : Int} {out : List Char} (h : p ∈ wmicParse own out) :
    p ≠ own ∧ ∃ line ∈ splitLines out, pyInt ((trim line).drop 10) = some p := by
  obtain ⟨l, hl, he⟩ := List.mem_filterMap.mp h
  simp only [wmicLine] at he
  split at he
  · split at he
    · cases he
    · next q heq =>
      split at he
      · cases he
      · next hqo =>
        obtain rfl : q = p := by cases he; rfl
        exact ⟨hqo, l, hl, heq⟩
  · cases he

/-- C10: the PID list `find_pids` returns never contains the calling
process's own PID, and each element was parsed as an integer from a line
of the output of whichever process-listing command the branch consulted
(for the WMIC branch, from the text after the `ProcessId=` key of its
line). -/
theorem find_pids_no_self_and_parsed :
    ∀ (own : Int) (isWin : Bool) (psRes wmicRes : Option CmdResult) (pgRes : CmdResult),
    own ∉ find_pids own isWin psRes wmicRes pgRes ∧
    ∀ p ∈ find_pids own isWin psRes wmicRes pgRes,
      (∃ r, psRes = some r ∧
        ∃ line ∈ splitLines (trim r.stdout), pyInt (trim line) = some p) ∨
      (∃ r, wmicRes = some r ∧
        ∃ line ∈ splitLines r.stdout, pyInt ((trim line).drop 10) = some p) ∨
      (isWin = false ∧
        ∃ line ∈ splitLines (trim pgRes.stdout), pyInt (trim line) = some p) := by
  intro own isWin psRes wmicRes pgRes
  have hmem : ∀ p, p ∈ find_pids own isWin psRes wmicRes pgRes →
      p ≠ own ∧
      ((∃ r, psRes = some r ∧ p ∈ psParse own r.stdout) ∨
       (∃ r, wmicRes = some r ∧ p ∈ wmicParse own r.stdout) ∨
       (isWin = false ∧ p ∈ psParse own pgRes.stdout)) := by
    intro p hp
    have hwmic : ∀ q, q ∈ wmicFallback own wmicRes →
        q ≠ own ∧ ∃ r, wmicRes = some r ∧ q ∈ wmicParse own r.stdout := by
      intro q hq
      unfold wmicFallback at hq
      split at hq
      · cases hq
      · next r =>
        split at hq
        · exact ⟨(wmicParse_sound hq).1, r, rfl, hq⟩
        · cases hq
    unfold find_pids at hp
    split at hp
    · next hwin =>
      split at hp
      · obtain ⟨hno, hw⟩ := hwmic p hp
        exact ⟨hno, Or.inr (Or.inl hw)⟩
      · next r =>
        split at hp
        · split at hp
          · exact ⟨(psParse_sound hp).1, Or.inl ⟨r, rfl, hp⟩⟩
          · obtain ⟨hno, hw⟩ := hwmic p hp
            exact ⟨hno, Or.inr (Or.inl hw)⟩
        · obtain ⟨hno, hw⟩ := hwmic p hp
          exact ⟨hno, Or.inr (Or.inl hw)⟩
    · next hwin =>
      split at hp
      · exact ⟨(psParse_sound hp).1, Or.inr (Or.inr ⟨by simpa using hwin, hp⟩)⟩
      · cases hp
  constructor
  · intro hself
    exact absurd rfl (hmem own hself).1
  · intro p hp
    rcases (hmem p hp).2 with ⟨r, hr, hin⟩ | ⟨r, hr, hin⟩ | ⟨hni, hin⟩
    · exact Or.inl ⟨r, hr, (psParse_sound hin).2⟩
    · exact Or.inr (Or.inl ⟨r, hr, (wmicParse_sound hin).2⟩)
    · exact Or.inr (Or.inr ⟨hni, (psParse_sound hin).2⟩)

end TunnelVault
